import Mathlib

set_option maxRecDepth 4000

/-!
# Verification of the lczero-training weight-exchange codec

A shallow embedding of `tf/tfprocess.py`: the network topology built by
`TFProcess.construct_net` (the ordered `self.weights` registry), the export
path `TFProcess.save_leelaz_weights` and the import path
`TFProcess.replace_weights`, together with theorems checking the
specification's claims about them.

Tensor values are modelled as flat lists of real numbers in the native
row-major layout; the TensorFlow transposes become explicit index
permutations on those flat lists.  Graph tensor names such as
`"bn3/batch_normalization/beta:0"` are modelled by the structured type
`WName`, which carries exactly the information the source manipulates
(the batch-norm counter key and the role suffix); the source's
`endswith` test for the `/batch_normalization/beta:0` suffix and its
`name.replace` rewrite of `beta` to `moving_variance` become `isBeta` and
`replaceBetaVar`.
-/

namespace LczeroCodec

/-- Structured model of the TensorFlow graph names used by the source:
`"bn{k}/conv_weight"`, `"bn{k}/batch_normalization/beta:0"`,
`"bn{k}/batch_normalization/moving_mean:0"`,
`"bn{k}/batch_normalization/moving_variance:0"`, `"fc{n}/weight"`,
`"fc{n}/bias"`. -/
inductive WName where
  | convWeight (k : Nat)
  | bnBeta (k : Nat)
  | bnMean (k : Nat)
  | bnVar (k : Nat)
  | fcWeight (n : Nat)
  | fcBias (n : Nat)
deriving DecidableEq, Repr

/-- The `weights.name.endswith` test for the `/batch_normalization/beta:0` suffix. -/
def isBeta : WName → Bool
  | .bnBeta _ => true
  | _ => false

/-- The `weights.name.replace` rewrite of `beta` to `moving_variance`. -/
def replaceBetaVar : WName → WName
  | .bnBeta k => .bnVar k
  | n => n

/-- One entry of the `self.weights` registry: a graph variable with its
static shape and its current values, flattened row-major in the native
(TensorFlow) layout. -/
structure Weight where
  name : WName
  shape : List Nat
  vals : List ℝ

/-- Number of elements of a tensor of the given shape. -/
def listProd : List Nat → Nat
  | [] => 1
  | d :: ds => d * listProd ds

/-- `VERSION = 2` (line 26 of the source). -/
def VERSION : Int := 2

/-! ## Layout conversion

`tf.transpose(w, [3, 2, 0, 1])` on a native `[H, W, I, O]` kernel yields the
exchange layout `[O, I, H, W]`; on import the line is reshaped to
`[O, I, H, W]` and `tf.transpose(w, [2, 3, 1, 0])` restores `[H, W, I, O]`.
Dense kernels transpose `[I, O] ⇄ [O, I]`.  On flat row-major lists these
are the index permutations below. -/

/-- Export-direction conv transpose: element at exchange-flat index `k`
(layout `[O, I, H, W]`) is the native element at `(y, x, i, o)` where
`x = k % W`, `y = k / W % H`, `i = k / (W*H) % I`, `o = k / (W*H*I)`. -/
def transpose4 (H W I O : Nat) (v : List ℝ) : List ℝ :=
  (List.range (O * I * H * W)).map fun k =>
    v.getD (k / (W * H * I) + O * (k / (W * H) % I + I * (k % W + W * (k / W % H)))) 0

/-- Import-direction conv transpose: element at native-flat index `j`
(layout `[H, W, I, O]`) is the exchange element at `(o, i, y, x)` where
`o = j % O`, `i = j / O % I`, `x = j / (O*I) % W`, `y = j / (O*I*W)`. -/
def untranspose4 (H W I O : Nat) (v : List ℝ) : List ℝ :=
  (List.range (H * W * I * O)).map fun j =>
    v.getD (j / (O * I) % W + W * (j / (O * I * W) + H * (j / O % I + I * (j % O)))) 0

/-- Export-direction dense transpose, native `[I, O]` to exchange `[O, I]`. -/
def transpose2 (I O : Nat) (v : List ℝ) : List ℝ :=
  (List.range (O * I)).map fun k => v.getD (k / I + O * (k % I)) 0

/-- Import-direction dense transpose, exchange `[O, I]` to native `[I, O]`. -/
def untranspose2 (I O : Nat) (v : List ℝ) : List ℝ :=
  (List.range (I * O)).map fun j => v.getD (j / O + I * (j % O)) 0

/-! ## Rule-50 input-scale compensation

Both directions test the exchange-flat index `i` of tensor slot 0 with
`(i % (num_inputs * 9)) // 9 == rule50_input` where `num_inputs = 112` and
`rule50_input = 109`, and the export direction divides by 99
(`str(weight / 99)`, line 353) while the import direction multiplies by 99
(`new_weights[e][i] * 99`, line 161).  The starting index argument mirrors
`enumerate`. -/

/-- Export-side rescaling of the slot-0 line (`save_leelaz_weights`). -/
noncomputable def rule50_div : Nat → List ℝ → List ℝ
  | _, [] => []
  | i, x :: xs => (if i % (112 * 9) / 9 = 109 then x / 99 else x) :: rule50_div (i + 1) xs

/-- Import-side in-place rescaling of `new_weights[0]` (`replace_weights`). -/
noncomputable def rule50_mul : Nat → List ℝ → List ℝ
  | _, [] => []
  | i, x :: xs => (if i % (112 * 9) / 9 = 109 then x * 99 else x) :: rule50_mul (i + 1) xs

/-! ## Export: `TFProcess.save_leelaz_weights` -/

/-- The per-tensor conversion of the export loop: batch-norm betas are folded
with the variance found by graph-name lookup (`get_tensor_by_name` over the
weight registry), 4-dim kernels are transposed to `[O, I, H, W]`, dense
kernels to `[O, I]`, and 1-dim tensors pass through.  `none` models the
`KeyError` of a failed graph lookup. -/
noncomputable def work_weights (ws : List Weight) (w : Weight) : Option (List ℝ) :=
  if isBeta w.name then
    (ws.find? fun x => x.name == replaceBetaVar w.name).map fun varw =>
      w.vals.zipWith (fun b v => b * Real.sqrt (v + 1e-5)) varw.vals
  else
    some (match w.shape with
      | [h, wd, ic, oc] => transpose4 h wd ic oc w.vals
      | [ic, oc] => transpose2 ic oc w.vals
      | _ => w.vals)

/-- The export loop over `enumerate(self.weights)`: convert each tensor and
rescale the rule-50 entries of line 0. -/
noncomputable def save_go (ws : List Weight) : Nat → List Weight → Option (List (List ℝ))
  | _, [] => some []
  | e, w :: rest => do
    let wk ← work_weights ws w
    let restLines ← save_go ws (e + 1) rest
    pure ((if e = 0 then rule50_div 0 wk else wk) :: restLines)

/-- `TFProcess.save_leelaz_weights`: the version tag followed by one numeric
line per registry tensor. -/
noncomputable def save_leelaz_weights (ws : List Weight) :
    Option (Int × List (List ℝ)) :=
  (save_go ws 0 ws).map fun ls => (VERSION, ls)

/-- The numeric lines an export of `ws` produces. -/
noncomputable def linesOf (ws : List Weight) : List (List ℝ) :=
  (save_go ws 0 ws).getD []

/-! ## Import: `TFProcess.replace_weights` -/

/-- One iteration of the import loop, after the in-place rule-50 rescaling of
`new_weights[0]` has been applied (see `mutate_nw`): betas are unfolded with
the variance line two slots later, kernels are reshaped and transposed back
to the native layout, 1-dim tensors are assigned directly. -/
noncomputable def replace_one (nw : List (List ℝ)) (e : Nat) (w : Weight) : Weight :=
  if isBeta w.name then
    { w with vals := (nw.getD e []).zipWith (fun b v => b / Real.sqrt (v + 1e-5)) (nw.getD (e + 2) []) }
  else match w.shape with
  | [h, wd, ic, oc] => { w with vals := untranspose4 h wd ic oc (nw.getD e []) }
  | [ic, oc] => { w with vals := untranspose2 ic oc (nw.getD e []) }
  | _ => { w with vals := nw.getD e [] }

/-- The import loop body over `enumerate(self.weights)`. -/
noncomputable def replace_go (nw : List (List ℝ)) : Nat → List Weight → List Weight
  | _, [] => []
  | e, w :: rest => replace_one nw e w :: replace_go nw (e + 1) rest

/-- The in-place mutation of the caller's `new_weights` list: when iteration
`e = 0` takes the 4-dim (non-beta) branch, `new_weights[0]` is overwritten
with its rule-50-rescaled copy before being used.  No other index of
`new_weights` is ever written, and index 0 is only read at iteration 0, so
the loop is equivalent to performing this mutation up front. -/
noncomputable def mutate_nw (ws : List Weight) (nw : List (List ℝ)) : List (List ℝ) :=
  match ws, nw with
  | w :: _, l :: rest =>
    if isBeta w.name = false ∧ w.shape.length = 4 then rule50_mul 0 l :: rest else l :: rest
  | _, _ => nw

/-- `TFProcess.replace_weights`: returns the updated weight registry together
with the caller-visible final state of the `new_weights` argument (the
source mutates it in place). -/
noncomputable def replace_weights (ws : List Weight) (nw : List (List ℝ)) :
    List Weight × List (List ℝ) :=
  (replace_go (mutate_nw ws nw) 0 ws, mutate_nw ws nw)

/-! ## Topology: `TFProcess.construct_net`

`construct_net` pushes tensors into `self.weights` in a fixed order; a
`TSpec` records the name and native shape of one slot.  `batch_norm_count`
starts at 0 (`init_net`). -/

abbrev TSpec := WName × List Nat

/-- The four tensors `conv_block` appends: kernel, beta, moving mean, moving
variance, under batch-norm key `k`. -/
def conv_specs (k S C O : Nat) : List TSpec :=
  [(.convWeight k, [S, S, C, O]), (.bnBeta k, [O]), (.bnMean k, [O]), (.bnVar k, [O])]

/-- The eight tensors `residual_block` appends: two 3×3 conv blocks. -/
def residual_specs (k C : Nat) : List TSpec :=
  conv_specs k 3 C C ++ conv_specs (k + 1) 3 C C

/-- The residual tower: `for _ in range(0, self.RESIDUAL_BLOCKS)`. -/
def tower (C : Nat) : Nat → Nat → List TSpec
  | _, 0 => []
  | k, n + 1 => residual_specs k C ++ tower C (k + 2) n

/-- The full `self.weights` order of `construct_net`: input conv block, `B`
residual blocks, policy conv block and dense layer, value conv block and two
dense layers.  `B` is an integer because the configuration value is not
validated; `Int.toNat` mirrors Python's `range(0, B)` being empty for
`B < 0`. -/
def construct_net (F : Nat) (B : Int) : List TSpec :=
  conv_specs 0 3 112 F ++ tower F 1 B.toNat
    ++ conv_specs (1 + 2 * B.toNat) 1 F 32
    ++ [(.fcWeight 1, [32 * 8 * 8, 1858]), (.fcBias 1, [1858])]
    ++ conv_specs (2 + 2 * B.toNat) 1 F 32
    ++ [(.fcWeight 2, [32 * 8 * 8, 128]), (.fcBias 2, [128])]
    ++ [(.fcWeight 3, [128, 1]), (.fcBias 3, [1])]

/-- A live weight registry realising a topology: names and shapes agree and
every value list has as many elements as its shape demands. -/
def Matches (ts : List TSpec) (ws : List Weight) : Prop :=
  List.Forall₂ (fun s w => w.name = s.1 ∧ w.shape = s.2 ∧ w.vals.length = listProd s.2) ts ws

/-- Structural well-formedness of a spec list: a sequence of conv blocks with
consecutive batch-norm keys (starting at the index argument) and dense
kernel/bias pairs.  Every list `construct_net` produces has this shape. -/
inductive SpecsGood : Nat → List TSpec → Prop where
  | nil (k : Nat) : SpecsGood k []
  | conv (k S C O : Nat) (rest : List TSpec) :
      SpecsGood (k + 1) rest → SpecsGood k (conv_specs k S C O ++ rest)
  | fc (k n : Nat) (s1 s2 : List Nat) (rest : List TSpec) :
      SpecsGood k rest → SpecsGood k ((.fcWeight n, s1) :: (.fcBias n, s2) :: rest)

/-- The running-variance entries admit the fold inversion: the folded factor
`sqrt(v + 1e-5)` is nonzero. -/
def VarOK (ws : List Weight) : Prop :=
  ∀ w ∈ ws, (∃ k, w.name = WName.bnVar k) → ∀ x ∈ w.vals, (0 : ℝ) < x + 1e-5

/-- The variance values positionally associated with slot `e` (the tensor two
slots later, per the conv-block ordering kernel, beta, mean, variance). -/
def varAt (ws : List Weight) (e : Nat) : List ℝ :=
  ((ws.get? (e + 2)).map Weight.vals).getD []

/-- Positional restatement of the per-tensor export conversion: what
`work_weights` computes once the graph-name lookup has been resolved to the
variance tensor two slots later. -/
noncomputable def convertLine (w : Weight) (varVals : List ℝ) : List ℝ :=
  if isBeta w.name then w.vals.zipWith (fun b v => b * Real.sqrt (v + 1e-5)) varVals
  else match w.shape with
  | [h, wd, ic, oc] => transpose4 h wd ic oc w.vals
  | [ic, oc] => transpose2 ic oc w.vals
  | _ => w.vals

/-- The numeric line slot `e` receives on export. -/
noncomputable def exportLine (w : Weight) (varVals : List ℝ) (e : Nat) : List ℝ :=
  if e = 0 then rule50_div 0 (convertLine w varVals) else convertLine w varVals

/-- A registry for a given spec list whose tensors are constant-filled
according to their name — used to build concrete networks. -/
def mkWsF (g : WName → ℝ) (ts : List TSpec) : List Weight :=
  ts.map fun s => ⟨s.1, s.2, List.replicate (listProd s.2) (g s.1)⟩

/-! ## Exchange-file parsing

The text-level parser is not part of `tfprocess.py`: the training driver
reads the file, checks the version tag and hands `replace_weights` one
already-split list of floats per tensor. -/

/-- The fatal parse failures of the exchange format. -/
inductive FormatError where
  | badVersion (v : Int)
  | badLineCount (got expected : Nat)
  | badSlot (e : Nat)
deriving DecidableEq

/-- A raw exchange file: the version integer and, per line, the
whitespace-split tokens, `none` standing for a token that does not parse as
a number. -/
structure RawFile where
  version : Int
  lines : List (List (Option ℝ))

/-- The spec list a live registry induces. -/
def topoOf (ws : List Weight) : List TSpec := ws.map fun w => (w.name, w.shape)

/-- One line is acceptable for one slot: the token count equals the slot's
exchange element count and every token parsed. -/
def slotOK (s : TSpec) (l : List (Option ℝ)) : Bool :=
  l.length == listProd s.2 && l.all Option.isSome

/-- Modelled from the spec: the per-tensor decoding loop of the parser (the
file-reading caller of `replace_weights` is not part of `tfprocess.py`).
Each line must split into exactly the slot's element count of parsable
numeric tokens; any deviation is fatal and names the offending tensor
slot. -/
def parse_go : Nat → List TSpec → List (List (Option ℝ)) → Except FormatError (List (List ℝ))
  | _, [], [] => .ok []
  | e, [], _ :: _ => .error (.badSlot e)
  | e, _ :: _, [] => .error (.badSlot e)
  | e, s :: ts, l :: ls =>
    if slotOK s l then
      match parse_go (e + 1) ts ls with
      | .error err => .error err
      | .ok rest => .ok (l.filterMap id :: rest)
    else .error (.badSlot e)

/-- Modelled from the spec: the whole-file parse (the file-reading caller of
`replace_weights` is not part of `tfprocess.py`).  The version is checked
first, then the line count against the topology, then each line; it either
returns every tensor's values or fails with a `FormatError` having read
nothing into the network. -/
def parse_weights (topo : List TSpec) (f : RawFile) : Except FormatError (List (List ℝ)) :=
  if f.version ≠ VERSION then .error (.badVersion f.version)
  else if f.lines.length ≠ topo.length then
    .error (.badLineCount f.lines.length topo.length)
  else parse_go 0 topo f.lines

/-- Modelled from the spec: full import — parse, then assign through
`replace_weights`; a parse error reaches the caller before any assignment
runs. -/
noncomputable def import_weights (ws : List Weight) (f : RawFile) :
    Except FormatError (List Weight) :=
  match parse_weights (topoOf ws) f with
  | .error err => .error err
  | .ok nw => .ok (replace_weights ws nw).1

/-- The network state the caller observes after attempting an import: on any
`FormatError` the registry is untouched. -/
noncomputable def run_import (ws : List Weight) (f : RawFile) : List Weight :=
  match import_weights ws f with
  | .error _ => ws
  | .ok ws' => ws'

/-! ## Concrete networks for the counterexamples and witnesses -/

/-- A one-tensor registry holding just the input convolution kernel
(`[3, 3, 112, 1]`, all entries 99). -/
def ws0 : List Weight :=
  [⟨.convWeight 0, [3, 3, 112, 1], List.replicate 1008 99⟩]

/-- The smallest full topology (`F = 1`, `B = 0`), every tensor filled with
ones. -/
def wsGood : List Weight := mkWsF (fun _ => 1) (construct_net 1 0)

/-- The same topology with every running variance set to `-1e-5`, the value
that collapses the fold factor `sqrt(v + 1e-5)` to zero. -/
noncomputable def wsBad : List Weight :=
  mkWsF (fun n => match n with | .bnVar _ => -1e-5 | _ => 1) (construct_net 1 0)

/-- The lines exporting `wsBad` produces. -/
noncomputable def badLines : List (List ℝ) := linesOf wsBad

/-! ## Mixed-radix index arithmetic -/

theorem enc_mod {b : Nat} (a m : Nat) (h : a < b) : (a + b * m) % b = a := by
  rw [Nat.add_mul_mod_self_left, Nat.mod_eq_of_lt h]

theorem enc_div {b : Nat} (a m : Nat) (h : a < b) : (a + b * m) / b = m := by
  rw [Nat.add_mul_div_left _ _ (lt_of_le_of_lt (Nat.zero_le a) h),
    Nat.div_eq_of_lt h, Nat.zero_add]

theorem radix_lt {a b m M : Nat} (ha : a < b) (hm : m < M) : a + b * m < b * M := by
  calc a + b * m < b + b * m := by omega
    _ = b * (m + 1) := by ring
    _ ≤ b * M := Nat.mul_le_mul_left b hm

/-! ## The two layout conversions are mutually inverse -/

theorem untranspose4_transpose4 {H W I O : Nat} {v : List ℝ}
    (hv : v.length = H * W * I * O) :
    untranspose4 H W I O (transpose4 H W I O v) = v := by
  apply List.ext_getElem
  · simp [untranspose4, hv]
  intro j h1 h2
  have hj : j < H * W * I * O := by rwa [hv] at h2
  have hO : 0 < O := Nat.pos_of_ne_zero fun h => by subst h; simp at hj
  have hI : 0 < I := Nat.pos_of_ne_zero fun h => by subst h; simp at hj
  have hW : 0 < W := Nat.pos_of_ne_zero fun h => by subst h; simp at hj
  have hH : 0 < H := Nat.pos_of_ne_zero fun h => by subst h; simp at hj
  simp only [untranspose4, List.getElem_map, List.getElem_range]
  set o := j % O with ho_def
  set i := j / O % I with hi_def
  set x := j / (O * I) % W with hx_def
  set y := j / (O * I * W) with hy_def
  have ho : o < O := Nat.mod_lt _ hO
  have hi : i < I := Nat.mod_lt _ hI
  have hx : x < W := Nat.mod_lt _ hW
  have hy : y < H := by
    rw [hy_def, Nat.div_lt_iff_lt_mul (Nat.mul_pos (Nat.mul_pos hO hI) hW)]
    exact lt_of_lt_of_le hj (le_of_eq (by ring))
  have hk : x + W * (y + H * (i + I * o)) < O * I * H * W := by
    have b1 : i + I * o < I * O := radix_lt hi ho
    have b2 : y + H * (i + I * o) < H * (I * O) := radix_lt hy b1
    have b3 : x + W * (y + H * (i + I * o)) < W * (H * (I * O)) := radix_lt hx b2
    exact lt_of_lt_of_le b3 (le_of_eq (by ring))
  rw [List.getD_eq_getElem _ _ (by simpa [transpose4] using hk)]
  simp only [transpose4, List.getElem_map, List.getElem_range]
  have e2 : (x + W * (y + H * (i + I * o))) / W = y + H * (i + I * o) := enc_div _ _ hx
  have e1 : (x + W * (y + H * (i + I * o))) % W = x := enc_mod _ _ hx
  have e3 : (x + W * (y + H * (i + I * o))) / W % H = y := by
    rw [e2]; exact enc_mod _ _ hy
  have e4 : (x + W * (y + H * (i + I * o))) / (W * H) = i + I * o := by
    rw [← Nat.div_div_eq_div_mul, e2]; exact enc_div _ _ hy
  have e5 : (x + W * (y + H * (i + I * o))) / (W * H) % I = i := by
    rw [e4]; exact enc_mod _ _ hi
  have e6 : (x + W * (y + H * (i + I * o))) / (W * H * I) = o := by
    rw [← Nat.div_div_eq_div_mul, e4]; exact enc_div _ _ hi
  rw [e1, e3, e5, e6]
  have d1 : j / O / I = j / (O * I) := Nat.div_div_eq_div_mul j O I
  have d2 : j / (O * I) / W = j / (O * I * W) := Nat.div_div_eq_div_mul _ _ _
  have hrec : o + O * (i + I * (x + W * y)) = j := by
    rw [ho_def, hi_def, hx_def, hy_def]
    calc j % O + O * (j / O % I + I * (j / (O * I) % W + W * (j / (O * I * W))))
        = j % O + O * (j / O % I + I * (j / (O * I) % W + W * (j / (O * I) / W))) := by
          rw [d2]
      _ = j % O + O * (j / O % I + I * (j / (O * I))) := by rw [Nat.mod_add_div]
      _ = j % O + O * (j / O % I + I * (j / O / I)) := by rw [d1]
      _ = j % O + O * (j / O) := by rw [Nat.mod_add_div]
      _ = j := Nat.mod_add_div j O
  rw [hrec, List.getD_eq_getElem _ _ h2]

theorem untranspose2_transpose2 {I O : Nat} {v : List ℝ}
    (hv : v.length = I * O) :
    untranspose2 I O (transpose2 I O v) = v := by
  apply List.ext_getElem
  · simp [untranspose2, hv]
  intro j h1 h2
  have hj : j < I * O := by rwa [hv] at h2
  have hO : 0 < O := Nat.pos_of_ne_zero fun h => by subst h; simp at hj
  have hI : 0 < I := Nat.pos_of_ne_zero fun h => by subst h; simp at hj
  simp only [untranspose2, List.getElem_map, List.getElem_range]
  have ho : j % O < O := Nat.mod_lt _ hO
  have hi : j / O < I := by
    rw [Nat.div_lt_iff_lt_mul hO]; exact hj
  have hk : j / O + I * (j % O) < O * I :=
    lt_of_lt_of_le (radix_lt hi ho) (le_of_eq (Nat.mul_comm I O))
  rw [List.getD_eq_getElem _ _ (by simpa [transpose2] using hk)]
  simp only [transpose2, List.getElem_map, List.getElem_range]
  rw [enc_mod _ _ hi, enc_div _ _ hi]
  have hrec : j % O + O * (j / O) = j := Nat.mod_add_div j O
  rw [hrec, List.getD_eq_getElem _ _ h2]

theorem transpose4_replicate (H W I O : Nat) (c : ℝ) :
    transpose4 H W I O (List.replicate (H * W * I * O) c) =
      List.replicate (O * I * H * W) c := by
  apply List.ext_getElem
  · simp [transpose4]
  intro j h1 h2
  have hj : j < O * I * H * W := by simpa using h2
  have hO : 0 < O := Nat.pos_of_ne_zero fun h => by subst h; simp at hj
  have hI : 0 < I := Nat.pos_of_ne_zero fun h => by subst h; simp at hj
  have hW : 0 < W := Nat.pos_of_ne_zero fun h => by subst h; simp at hj
  have hH : 0 < H := Nat.pos_of_ne_zero fun h => by subst h; simp at hj
  simp only [transpose4, List.getElem_map, List.getElem_range, List.getElem_replicate]
  have hx : j % W < W := Nat.mod_lt _ hW
  have hy : j / W % H < H := Nat.mod_lt _ hH
  have hi : j / (W * H) % I < I := Nat.mod_lt _ hI
  have ho : j / (W * H * I) < O := by
    rw [Nat.div_lt_iff_lt_mul (Nat.mul_pos (Nat.mul_pos hW hH) hI)]
    exact lt_of_lt_of_le hj (le_of_eq (by ring))
  have hk : j / (W * H * I) + O * (j / (W * H) % I + I * (j % W + W * (j / W % H)))
      < H * W * I * O := by
    have b1 : j % W + W * (j / W % H) < W * H := radix_lt hx hy
    have b2 : j / (W * H) % I + I * (j % W + W * (j / W % H)) < I * (W * H) :=
      radix_lt hi b1
    have b3 : j / (W * H * I) + O * (j / (W * H) % I + I * (j % W + W * (j / W % H)))
        < O * (I * (W * H)) := radix_lt ho b2
    exact lt_of_lt_of_le b3 (le_of_eq (by ring))
  rw [List.getD_eq_getElem _ _ (by simpa using hk), List.getElem_replicate]

/-! ## Small list helpers -/

theorem get?_getD {α : Type} {l : List α} {n : Nat} {a : α} (d : α)
    (h : l.get? n = some a) : l.getD n d = a := by
  induction l generalizing n with
  | nil => simp at h
  | cons x xs ih =>
    cases n with
    | zero => simp at h; simp [h]
    | succ m =>
      simp only [List.get?_cons_succ] at h
      simpa using ih h

/-! ## Rule-50 rescaling lemmas -/

theorem rule50_div_length (s : Nat) (l : List ℝ) :
    (rule50_div s l).length = l.length := by
  induction l generalizing s with
  | nil => rfl
  | cons x xs ih => simp [rule50_div, ih]

theorem rule50_mul_length (s : Nat) (l : List ℝ) :
    (rule50_mul s l).length = l.length := by
  induction l generalizing s with
  | nil => rfl
  | cons x xs ih => simp [rule50_mul, ih]

theorem rule50_div_get? (s : Nat) (l : List ℝ) (i : Nat) (h : i < l.length) :
    (rule50_div s l).get? i =
      some (if (s + i) % (112 * 9) / 9 = 109 then l.getD i 0 / 99 else l.getD i 0) := by
  induction l generalizing s i with
  | nil => simp at h
  | cons x xs ih =>
    cases i with
    | zero => simp [rule50_div]
    | succ n =>
      have h' : n < xs.length := by simpa using h
      have hih := ih (s + 1) n h'
      have harith : s + 1 + n = s + (n + 1) := by omega
      rw [harith] at hih
      simpa [rule50_div] using hih

theorem rule50_mul_get? (s : Nat) (l : List ℝ) (i : Nat) (h : i < l.length) :
    (rule50_mul s l).get? i =
      some (if (s + i) % (112 * 9) / 9 = 109 then l.getD i 0 * 99 else l.getD i 0) := by
  induction l generalizing s i with
  | nil => simp at h
  | cons x xs ih =>
    cases i with
    | zero => simp [rule50_mul]
    | succ n =>
      have h' : n < xs.length := by simpa using h
      have hih := ih (s + 1) n h'
      have harith : s + 1 + n = s + (n + 1) := by omega
      rw [harith] at hih
      simpa [rule50_mul] using hih

theorem rule50_mul_div (s : Nat) (l : List ℝ) : rule50_mul s (rule50_div s l) = l := by
  induction l generalizing s with
  | nil => rfl
  | cons x xs ih =>
    by_cases hc : s % (112 * 9) / 9 = 109
    · simp only [rule50_div, rule50_mul, if_pos hc, ih]
      rw [div_mul_cancel₀ x (by norm_num : (99 : ℝ) ≠ 0)]
    · simp only [rule50_div, rule50_mul, if_neg hc, ih]

/-! ## Fold/unfold of the batch-norm beta -/

theorem zip_unfold_fold {bl vl : List ℝ} (hlen : bl.length = vl.length)
    (hv : ∀ x ∈ vl, (0 : ℝ) < x + 1e-5) :
    List.zipWith (fun b v => b / Real.sqrt (v + 1e-5))
      (List.zipWith (fun b v => b * Real.sqrt (v + 1e-5)) bl vl) vl = bl := by
  induction bl generalizing vl with
  | nil => cases vl <;> simp
  | cons b bs ih =>
    cases vl with
    | nil => simp at hlen
    | cons v vs =>
      have hpos : (0 : ℝ) < v + 1e-5 := hv v (List.mem_cons_self _ _)
      have hs : Real.sqrt (v + 1e-5) ≠ 0 := ne_of_gt (Real.sqrt_pos.mpr hpos)
      have hrest := @ih vs (by simpa using hlen)
        (fun x hx => hv x (List.mem_cons_of_mem _ hx))
      simp only [List.zipWith_cons_cons, hrest]
      rw [mul_div_cancel_right₀ b hs]

/-- A Boolean name is a beta exactly when it is `bnBeta k` for some key. -/
theorem isBeta_iff {n : WName} : isBeta n = true ↔ ∃ k, n = WName.bnBeta k := by
  cases n <;> simp [isBeta]

/-! ## The export loop -/

theorem save_go_eq_some (ws : List Weight) :
    ∀ (l : List Weight) (e : Nat), (∀ w ∈ l, (work_weights ws w).isSome) →
      ∃ ls, save_go ws e l = some ls := by
  intro l
  induction l with
  | nil => exact fun e _ => ⟨[], rfl⟩
  | cons w rest ih =>
    intro e h
    obtain ⟨wk, hwk⟩ := Option.isSome_iff_exists.mp (h w (List.mem_cons_self _ _))
    obtain ⟨ls, hls⟩ := ih (e + 1) fun w' hw' => h w' (List.mem_cons_of_mem _ hw')
    refine ⟨(if e = 0 then rule50_div 0 wk else wk) :: ls, ?_⟩
    simp [save_go, hwk, hls]

theorem save_go_get? (ws : List Weight) :
    ∀ (l : List Weight) (e : Nat) (ls : List (List ℝ)), save_go ws e l = some ls →
      ls.length = l.length ∧
      ∀ j w, l.get? j = some w →
        ∃ wk, work_weights ws w = some wk ∧
          ls.get? j = some (if e + j = 0 then rule50_div 0 wk else wk) := by
  intro l
  induction l with
  | nil =>
    intro e ls h
    simp only [save_go] at h
    cases h
    exact ⟨rfl, fun j w hj => by simp at hj⟩
  | cons w rest ih =>
    intro e ls h
    simp only [save_go, Option.bind_eq_bind, Option.bind_eq_some] at h
    obtain ⟨wk, hwk, rest', hrest', hcons⟩ := h
    cases hcons
    obtain ⟨hlen, hslots⟩ := ih (e + 1) rest' hrest'
    refine ⟨by simpa using hlen, ?_⟩
    intro j w' hj
    cases j with
    | zero =>
      simp only [List.get?_cons_zero, Option.some.injEq] at hj
      subst hj
      exact ⟨wk, hwk, by simp⟩
    | succ n =>
      simp only [List.get?_cons_succ] at hj
      obtain ⟨wk', hwk', hline⟩ := hslots n w' hj
      have harith : e + 1 + n = e + (n + 1) := by omega
      rw [harith] at hline
      exact ⟨wk', hwk', by simpa using hline⟩

/-! ## Topology structure lemmas -/

theorem matches_get? : ∀ {ts : List TSpec} {ws : List Weight}, Matches ts ws →
    ∀ {j : Nat} {b : Weight}, ws.get? j = some b →
      ∃ s, ts.get? j = some s ∧ b.name = s.1 ∧ b.shape = s.2 ∧
        b.vals.length = listProd s.2 := by
  intro ts ws h
  induction h with
  | nil => intro j b hj; simp at hj
  | @cons s w ts' ws' hrel _ ih =>
    intro j b hj
    cases j with
    | zero =>
      simp only [List.get?_cons_zero, Option.some.injEq] at hj
      subst hj
      exact ⟨s, rfl, hrel.1, hrel.2.1, hrel.2.2⟩
    | succ m =>
      simp only [List.get?_cons_succ] at hj ⊢
      exact ih hj

theorem specs_beta_lb : ∀ {c : Nat} {ts : List TSpec}, SpecsGood c ts →
    ∀ s ∈ ts, ∀ k, s.1 = WName.bnBeta k → c ≤ k := by
  intro c ts h
  induction h with
  | nil => intro s hs; simp at hs
  | conv k S C O rest hrest ih =>
    intro s hs k' hname
    have hs' : s = (WName.convWeight k, [S, S, C, O]) ∨ s = (WName.bnBeta k, [O]) ∨
        s = (WName.bnMean k, [O]) ∨ s = (WName.bnVar k, [O]) ∨ s ∈ rest := by
      simpa [conv_specs] using hs
    rcases hs' with rfl | rfl | rfl | rfl | hr
    · simp at hname
    · simp only at hname
      rw [WName.bnBeta.injEq] at hname
      omega
    · simp at hname
    · simp at hname
    · have := ih s hr k' hname
      omega
  | fc k n s1 s2 rest hrest ih =>
    intro s hs k' hname
    have hs' : s = (WName.fcWeight n, s1) ∨ s = (WName.fcBias n, s2) ∨ s ∈ rest := by
      simpa using hs
    rcases hs' with rfl | rfl | hr
    · simp at hname
    · simp at hname
    · exact ih s hr k' hname

theorem matches_cons_inv {s : TSpec} {ts : List TSpec} {ws : List Weight}
    (h : Matches (s :: ts) ws) :
    ∃ w ws', ws = w :: ws' ∧ w.name = s.1 ∧ w.shape = s.2 ∧
      w.vals.length = listProd s.2 ∧ Matches ts ws' := by
  cases h with
  | cons hrel hrest => exact ⟨_, _, rfl, hrel.1, hrel.2.1, hrel.2.2, hrest⟩

theorem get?_cons2 {α : Type} (a b : α) (l : List α) (j : Nat) :
    (a :: b :: l).get? (j + 2) = l.get? j := by
  have e1 : j + 2 = (j + 1) + 1 := by omega
  rw [e1, List.get?_cons_succ, List.get?_cons_succ]

theorem get?_cons4 {α : Type} (a b c d : α) (l : List α) (j : Nat) :
    (a :: b :: c :: d :: l).get? (j + 4) = l.get? j := by
  have e1 : j + 4 = (j + 3) + 1 := by omega
  have e2 : j + 3 = (j + 2) + 1 := by omega
  have e3 : j + 2 = (j + 1) + 1 := by omega
  rw [e1, List.get?_cons_succ, e2, List.get?_cons_succ, e3, List.get?_cons_succ,
    List.get?_cons_succ]

/-- In a well-formed registry the graph-name lookup
`get_tensor_by_name` lookup (the name with `beta` replaced by
`moving_variance`) performed by the
export path resolves to the tensor two slots after the beta: the moving
variance of the same conv block. -/
theorem find_var_of_beta : ∀ {c : Nat} {ts : List TSpec}, SpecsGood c ts →
    ∀ {ws : List Weight}, Matches ts ws →
    ∀ {e k : Nat} {b : Weight}, ws.get? e = some b → b.name = WName.bnBeta k →
      ∃ m v, ws.get? (e + 1) = some m ∧ ws.get? (e + 2) = some v ∧
        m.name = WName.bnMean k ∧ v.name = WName.bnVar k ∧
        v.vals.length = b.vals.length ∧
        (∃ OO : Nat, b.shape = [OO] ∧ m.shape = [OO] ∧ v.shape = [OO]) ∧
        (ws.find? fun x => x.name == WName.bnVar k) = some v := by
  intro c ts hg
  induction hg with
  | nil =>
    intro ws hm e k b hget hname
    cases hm
    simp at hget
  | conv k S C O rest hrest ih =>
    intro ws hm e k' b' hget hname
    simp only [conv_specs, List.cons_append, List.nil_append] at hm
    obtain ⟨w, ws1, rfl, hwn, hwsh, hwlen, hm⟩ := matches_cons_inv hm
    obtain ⟨b, ws2, rfl, hbn, hbsh, hblen, hm⟩ := matches_cons_inv hm
    obtain ⟨m, ws3, rfl, hmn, hmsh, hmlen, hm⟩ := matches_cons_inv hm
    obtain ⟨v, wsr, rfl, hvn, hvsh, hvlen, hm⟩ := matches_cons_inv hm
    match e with
    | 0 =>
      simp only [List.get?_cons_zero, Option.some.injEq] at hget
      subst hget
      rw [hwn] at hname
      simp at hname
    | 1 =>
      simp only [List.get?_cons_succ, List.get?_cons_zero, Option.some.injEq] at hget
      subst hget
      rw [hbn] at hname
      injection hname with hk
      subst hk
      refine ⟨m, v, by simp, by simp, hmn, hvn, by rw [hvlen, hblen],
        ⟨O, hbsh, hmsh, hvsh⟩, ?_⟩
      rw [List.find?_cons_of_neg _ (by simp [hwn]),
        List.find?_cons_of_neg _ (by simp [hbn]),
        List.find?_cons_of_neg _ (by simp [hmn]),
        List.find?_cons_of_pos _ (by simp [hvn])]
    | 2 =>
      simp only [List.get?_cons_succ, List.get?_cons_zero, Option.some.injEq] at hget
      subst hget
      rw [hmn] at hname
      simp at hname
    | 3 =>
      simp only [List.get?_cons_succ, List.get?_cons_zero, Option.some.injEq] at hget
      subst hget
      rw [hvn] at hname
      simp at hname
    | (j + 4) =>
      rw [get?_cons4] at hget
      obtain ⟨m', v', h1, h2, hm'n, hv'n, hlen', hsh', hfind'⟩ := ih hm hget hname
      have hkey : k + 1 ≤ k' := by
        obtain ⟨s, hs, hsn, -, -⟩ := matches_get? hm hget
        exact specs_beta_lb hrest s (List.get?_mem hs) k' (by rw [← hsn, hname])
      refine ⟨m', v', ?_, ?_, hm'n, hv'n, hlen', hsh', ?_⟩
      · have e1 : j + 4 + 1 = (j + 1) + 4 := by omega
        rw [e1, get?_cons4]
        exact h1
      · have e2 : j + 4 + 2 = (j + 2) + 4 := by omega
        rw [e2, get?_cons4]
        exact h2
      · rw [List.find?_cons_of_neg _ (by simp [hwn]),
          List.find?_cons_of_neg _ (by simp [hbn]),
          List.find?_cons_of_neg _ (by simp [hmn]),
          List.find?_cons_of_neg _ (by simp [hvn]; omega)]
        exact hfind'
  | fc k n s1 s2 rest hrest ih =>
    intro ws hm e k' b' hget hname
    obtain ⟨wt, ws1, rfl, hwtn, hwtsh, hwtlen, hm⟩ := matches_cons_inv hm
    obtain ⟨bs, wsr, rfl, hbsn, hbssh, hbslen, hm⟩ := matches_cons_inv hm
    match e with
    | 0 =>
      simp only [List.get?_cons_zero, Option.some.injEq] at hget
      subst hget
      rw [hwtn] at hname
      simp at hname
    | 1 =>
      simp only [List.get?_cons_succ, List.get?_cons_zero, Option.some.injEq] at hget
      subst hget
      rw [hbsn] at hname
      simp at hname
    | (j + 2) =>
      rw [get?_cons2] at hget
      obtain ⟨m', v', h1, h2, hm'n, hv'n, hlen', hsh', hfind'⟩ := ih hm hget hname
      refine ⟨m', v', ?_, ?_, hm'n, hv'n, hlen', hsh', ?_⟩
      · have e1 : j + 2 + 1 = (j + 1) + 2 := by omega
        rw [e1, get?_cons2]
        exact h1
      · have e2 : j + 2 + 2 = (j + 2) + 2 := by omega
        rw [e2, get?_cons2]
        exact h2
      · rw [List.find?_cons_of_neg _ (by simp [hwtn]),
          List.find?_cons_of_neg _ (by simp [hbsn])]
        exact hfind'

/-- On a well-formed registry, `work_weights` succeeds on every slot and
computes the positional `convertLine` (the lookup having resolved to the
variance two slots later). -/
theorem work_weights_eq {c : Nat} {ts : List TSpec} {ws : List Weight}
    (hg : SpecsGood c ts) (hm : Matches ts ws) :
    ∀ {e : Nat} {b : Weight}, ws.get? e = some b →
      work_weights ws b = some (convertLine b (varAt ws e)) := by
  intro e b hget
  by_cases hbeta : isBeta b.name = true
  · obtain ⟨k, hk⟩ := isBeta_iff.mp hbeta
    obtain ⟨m, v, h1, h2, hmn, hvn, hlen, hsh, hfind⟩ := find_var_of_beta hg hm hget hk
    have hrep : replaceBetaVar b.name = WName.bnVar k := by rw [hk]; rfl
    have hvarAt : varAt ws e = v.vals := by unfold varAt; rw [h2]; rfl
    simp only [work_weights, hrep, hfind, if_pos hbeta, Option.map_some']
    simp [convertLine, hbeta, hvarAt]
  · have hb : isBeta b.name = false := by simpa using hbeta
    simp [work_weights, convertLine, hb]

/-- Exporting a well-formed registry succeeds and writes, at every slot, the
slot's converted line (rule-50-rescaled at slot 0). -/
theorem linesOf_spec {c : Nat} {ts : List TSpec} {ws : List Weight}
    (hg : SpecsGood c ts) (hm : Matches ts ws) :
    save_go ws 0 ws = some (linesOf ws) ∧ (linesOf ws).length = ws.length ∧
    ∀ e b, ws.get? e = some b →
      (linesOf ws).get? e = some (exportLine b (varAt ws e) e) := by
  have hsome : ∀ w ∈ ws, (work_weights ws w).isSome := by
    intro w hw
    obtain ⟨n, hn⟩ := List.get?_of_mem hw
    rw [work_weights_eq hg hm hn]
    rfl
  obtain ⟨ls, hls⟩ := save_go_eq_some ws ws 0 hsome
  have hlines : linesOf ws = ls := by rw [linesOf, hls]; rfl
  obtain ⟨hlen, hslots⟩ := save_go_get? ws ws 0 ls hls
  refine ⟨by rw [hlines]; exact hls, by rw [hlines, hlen], ?_⟩
  intro e b hget
  obtain ⟨wk, hwk, hline⟩ := hslots e b hget
  have hwk2 : wk = convertLine b (varAt ws e) := by
    have h2 := work_weights_eq hg hm hget
    rw [hwk] at h2
    exact Option.some.inj h2
  subst hwk2
  rw [Nat.zero_add] at hline
  rw [hlines, hline]
  simp [exportLine]

/-- A non-beta slot whose line carries its own converted values is restored
exactly by the import conversion. -/
theorem replace_one_of_line {nw : List (List ℝ)} {e : Nat} {w : Weight}
    (varVals : List ℝ) (hbeta : isBeta w.name = false)
    (hlen : w.vals.length = listProd w.shape)
    (hline : nw.get? e = some (convertLine w varVals)) :
    replace_one nw e w = w := by
  have hgD : nw.getD e [] = convertLine w varVals := get?_getD _ hline
  rcases w with ⟨name, shape, vals⟩
  simp only at hbeta hlen hgD ⊢
  rcases shape with _ | ⟨d1, _ | ⟨d2, _ | ⟨d3, _ | ⟨d4, _ | ⟨d5, tl⟩⟩⟩⟩⟩
  · simp only [convertLine, hbeta, Bool.false_eq_true, if_false] at hgD
    simp only [replace_one, hbeta, Bool.false_eq_true, if_false, hgD]
  · simp only [convertLine, hbeta, Bool.false_eq_true, if_false] at hgD
    simp only [replace_one, hbeta, Bool.false_eq_true, if_false, hgD]
  · simp only [convertLine, hbeta, Bool.false_eq_true, if_false] at hgD
    simp only [replace_one, hbeta, Bool.false_eq_true, if_false, hgD]
    have hv : vals.length = d1 * d2 := by
      rw [hlen]; simp [listProd]
    rw [untranspose2_transpose2 hv]
  · simp only [convertLine, hbeta, Bool.false_eq_true, if_false] at hgD
    simp only [replace_one, hbeta, Bool.false_eq_true, if_false, hgD]
  · simp only [convertLine, hbeta, Bool.false_eq_true, if_false] at hgD
    simp only [replace_one, hbeta, Bool.false_eq_true, if_false, hgD]
    have hv : vals.length = d1 * d2 * d3 * d4 := by
      rw [hlen]; simp [listProd, Nat.mul_assoc]
    rw [untranspose4_transpose4 hv]
  · simp only [convertLine, hbeta, Bool.false_eq_true, if_false] at hgD
    simp only [replace_one, hbeta, Bool.false_eq_true, if_false, hgD]

/-- The import loop, fed with lines holding the positional conversion of a
well-formed registry (with invertible variances), rebuilds the registry
exactly. -/
theorem replace_go_restore : ∀ {c : Nat} {ts : List TSpec}, SpecsGood c ts →
    ∀ {ws : List Weight}, Matches ts ws → VarOK ws →
    ∀ (nw : List (List ℝ)) (e : Nat),
      (∀ j b, ws.get? j = some b → nw.get? (e + j) = some (convertLine b (varAt ws j))) →
      replace_go nw e ws = ws := by
  intro c ts hg
  induction hg with
  | nil =>
    intro ws hm hvok nw e hnw
    cases hm
    rfl
  | conv k S C O rest hrest ih =>
    intro ws hm hvok nw e hnw
    simp only [conv_specs, List.cons_append, List.nil_append] at hm
    obtain ⟨w, ws1, rfl, hwn, hwsh, hwlen, hm⟩ := matches_cons_inv hm
    obtain ⟨b, ws2, rfl, hbn, hbsh, hblen, hm⟩ := matches_cons_inv hm
    obtain ⟨m, ws3, rfl, hmn, hmsh, hmlen, hm⟩ := matches_cons_inv hm
    obtain ⟨v, wsr, rfl, hvn, hvsh, hvlen, hm⟩ := matches_cons_inv hm
    have hw0 : replace_one nw e w = w := by
      refine replace_one_of_line (varAt (w :: b :: m :: v :: wsr) 0)
        (by rw [hwn]; rfl) (by rw [hwsh]; exact hwlen) ?_
      have h := hnw 0 w rfl
      rwa [Nat.add_zero] at h
    have hbb : isBeta b.name = true := by rw [hbn]; rfl
    have hb1 : replace_one nw (e + 1) b = b := by
      have hline1 := hnw 1 b rfl
      have hline3 := hnw 3 v rfl
      have hvar1 : varAt (w :: b :: m :: v :: wsr) 1 = v.vals := rfl
      have hvbeta : isBeta v.name = false := by rw [hvn]; rfl
      have hvar3conv : convertLine v (varAt (w :: b :: m :: v :: wsr) 3) = v.vals := by
        simp only [convertLine, hvbeta, Bool.false_eq_true, if_false, hvsh]
      have hconvb : convertLine b v.vals =
          List.zipWith (fun bb vv => bb * Real.sqrt (vv + 1e-5)) b.vals v.vals := by
        unfold convertLine
        rw [if_pos hbb]
      rw [hvar1, hconvb] at hline1
      rw [hvar3conv] at hline3
      have hgd1 := get?_getD ([] : List ℝ) hline1
      have hgd3 := get?_getD ([] : List ℝ) hline3
      have hlenbv : b.vals.length = v.vals.length := by rw [hblen, hvlen]
      have hvpos : ∀ x ∈ v.vals, (0 : ℝ) < x + 1e-5 :=
        hvok v (List.mem_cons_of_mem _ (List.mem_cons_of_mem _ (List.mem_cons_of_mem _
          (List.mem_cons_self _ _)))) ⟨k, hvn⟩
      unfold replace_one
      rw [if_pos hbb, hgd1, hgd3, zip_unfold_fold hlenbv hvpos]
    have hm2 : replace_one nw (e + 2) m = m := by
      refine replace_one_of_line (varAt (w :: b :: m :: v :: wsr) 2)
        (by rw [hmn]; rfl) (by rw [hmsh]; exact hmlen) ?_
      exact hnw 2 m rfl
    have hv3 : replace_one nw (e + 3) v = v := by
      refine replace_one_of_line (varAt (w :: b :: m :: v :: wsr) 3)
        (by rw [hvn]; rfl) (by rw [hvsh]; exact hvlen) ?_
      exact hnw 3 v rfl
    have htail : replace_go nw (e + 4) wsr = wsr := by
      refine ih hm ?_ nw (e + 4) ?_
      · intro w' hw' hk' x hx
        exact hvok w' (List.mem_cons_of_mem _ (List.mem_cons_of_mem _
          (List.mem_cons_of_mem _ (List.mem_cons_of_mem _ hw')))) hk' x hx
      · intro j b' hj
        have h := hnw (j + 4) b' (by rw [get?_cons4]; exact hj)
        have e1 : e + (j + 4) = e + 4 + j := by omega
        rw [e1] at h
        have e2 : varAt (w :: b :: m :: v :: wsr) (j + 4) = varAt wsr j := by
          unfold varAt
          have e3 : j + 4 + 2 = (j + 2) + 4 := by omega
          rw [e3, get?_cons4]
        rw [e2] at h
        exact h
    simp only [replace_go]
    rw [hw0, hb1, hm2, hv3, htail]
  | fc k n s1 s2 rest hrest ih =>
    intro ws hm hvok nw e hnw
    obtain ⟨wt, ws1, rfl, hwtn, hwtsh, hwtlen, hm⟩ := matches_cons_inv hm
    obtain ⟨bs, wsr, rfl, hbsn, hbssh, hbslen, hm⟩ := matches_cons_inv hm
    have h0 : replace_one nw e wt = wt := by
      refine replace_one_of_line (varAt (wt :: bs :: wsr) 0)
        (by rw [hwtn]; rfl) (by rw [hwtsh]; exact hwtlen) ?_
      have h := hnw 0 wt rfl
      rwa [Nat.add_zero] at h
    have h1 : replace_one nw (e + 1) bs = bs := by
      refine replace_one_of_line (varAt (wt :: bs :: wsr) 1)
        (by rw [hbsn]; rfl) (by rw [hbssh]; exact hbslen) ?_
      exact hnw 1 bs rfl
    have htail : replace_go nw (e + 2) wsr = wsr := by
      refine ih hm ?_ nw (e + 2) ?_
      · intro w' hw' hk' x hx
        exact hvok w' (List.mem_cons_of_mem _ (List.mem_cons_of_mem _ hw')) hk' x hx
      · intro j b' hj
        have h := hnw (j + 2) b' (by rw [get?_cons2]; exact hj)
        have e1 : e + (j + 2) = e + 2 + j := by omega
        rw [e1] at h
        have e2 : varAt (wt :: bs :: wsr) (j + 2) = varAt wsr j := by
          unfold varAt
          have e3 : j + 2 + 2 = (j + 2) + 2 := by omega
          rw [e3, get?_cons2]
        rw [e2] at h
        exact h
    simp only [replace_go]
    rw [h0, h1, htail]

/-! ## `construct_net` builds a well-formed topology -/

theorem specsGood_tower (C : Nat) : ∀ (n k : Nat) {ts : List TSpec},
    SpecsGood (k + 2 * n) ts → SpecsGood k (tower C k n ++ ts) := by
  intro n
  induction n with
  | zero =>
    intro k ts h
    simpa [tower] using h
  | succ n ih =>
    intro k ts h
    simp only [tower, residual_specs, List.append_assoc]
    apply SpecsGood.conv
    apply SpecsGood.conv
    have e : k + 2 * (n + 1) = k + 2 + 2 * n := by omega
    rw [e] at h
    exact ih (k + 2) h

theorem specsGood_construct (F : Nat) (B : Int) : SpecsGood 0 (construct_net F B) := by
  unfold construct_net
  simp only [List.append_assoc, List.cons_append, List.nil_append]
  apply SpecsGood.conv
  apply specsGood_tower
  apply SpecsGood.conv
  apply SpecsGood.fc
  have e : 1 + 2 * B.toNat + 1 = 2 + 2 * B.toNat := by omega
  rw [e]
  apply SpecsGood.conv
  apply SpecsGood.fc
  apply SpecsGood.fc
  exact SpecsGood.nil _

theorem tower_length (C : Nat) : ∀ (n k : Nat), (tower C k n).length = 8 * n := by
  intro n
  induction n with
  | zero => intro k; rfl
  | succ n ih =>
    intro k
    simp only [tower, residual_specs, conv_specs, List.length_append, ih]
    simp
    omega

theorem construct_net_length (F : Nat) (B : Int) :
    (construct_net F B).length = 18 + 8 * B.toNat := by
  simp only [construct_net, List.length_append, tower_length, conv_specs]
  simp
  omega

theorem matches_mkWsF (g : WName → ℝ) (ts : List TSpec) : Matches ts (mkWsF g ts) := by
  induction ts with
  | nil => exact List.Forall₂.nil
  | cons s ts ih => exact List.Forall₂.cons ⟨rfl, rfl, by simp [mkWsF]⟩ ih

theorem varOK_mkWsF (g : WName → ℝ) (hg : ∀ k, (0 : ℝ) < g (WName.bnVar k) + 1e-5)
    (ts : List TSpec) : VarOK (mkWsF g ts) := by
  intro w hw hk x hx
  obtain ⟨k, hk⟩ := hk
  obtain ⟨s, hs, rfl⟩ := List.mem_map.mp hw
  simp only at hk hx
  rw [List.eq_of_mem_replicate hx, hk]
  exact hg k

/-! ## The export/import round trip -/

/-- Exporting a `construct_net` registry succeeds, and importing the produced
lines restores the registry exactly. -/
theorem roundtrip_core (F : Nat) (B : Int) {ws : List Weight}
    (hm : Matches (construct_net F B) ws) (hvok : VarOK ws) :
    save_go ws 0 ws = some (linesOf ws) ∧
    (replace_weights ws (linesOf ws)).1 = ws := by
  have hg := specsGood_construct F B
  obtain ⟨hsave, hlen, hslots⟩ := linesOf_spec hg hm
  refine ⟨hsave, ?_⟩
  obtain ⟨w0, wsr, rfl, hw0n, hw0sh⟩ :
      ∃ w0 wsr, ws = w0 :: wsr ∧ w0.name = WName.convWeight 0 ∧
        w0.shape = [3, 3, 112, F] := by
    have hm' := hm
    rw [construct_net] at hm'
    simp only [conv_specs, List.cons_append, List.append_assoc] at hm'
    obtain ⟨w0, wsr, rfl, hn, hsh, _, _⟩ := matches_cons_inv hm'
    exact ⟨w0, wsr, rfl, hn, hsh⟩
  have hl0 := hslots 0 w0 rfl
  obtain ⟨l0, lrest, hlines_eq⟩ : ∃ l0 lrest, linesOf (w0 :: wsr) = l0 :: lrest := by
    cases hL : linesOf (w0 :: wsr) with
    | nil => rw [hL] at hl0; simp at hl0
    | cons a as => exact ⟨a, as, rfl⟩
  have hl0v : l0 = exportLine w0 (varAt (w0 :: wsr) 0) 0 := by
    rw [hlines_eq] at hl0
    simpa using hl0
  have hmut : mutate_nw (w0 :: wsr) (l0 :: lrest) = rule50_mul 0 l0 :: lrest := by
    simp [mutate_nw, hw0n, hw0sh, isBeta]
  have hyp : ∀ j b, (w0 :: wsr).get? j = some b →
      (mutate_nw (w0 :: wsr) (linesOf (w0 :: wsr))).get? (0 + j) =
        some (convertLine b (varAt (w0 :: wsr) j)) := by
    intro j b hj
    rw [Nat.zero_add]
    cases j with
    | zero =>
      have hb : b = w0 := by
        simp only [List.get?_cons_zero, Option.some.injEq] at hj
        exact hj.symm
      subst hb
      rw [hlines_eq, hmut, List.get?_cons_zero, hl0v]
      simp [exportLine, rule50_mul_div]
    | succ jj =>
      have hline := hslots (jj + 1) b hj
      rw [hlines_eq] at hline
      rw [List.get?_cons_succ] at hline
      rw [hlines_eq, hmut, List.get?_cons_succ]
      simpa [exportLine] using hline
  have hrg := replace_go_restore hg hm hvok
    (mutate_nw (w0 :: wsr) (linesOf (w0 :: wsr))) 0 hyp
  simpa [replace_weights] using hrg

/-! ## Further helpers for the claim theorems -/

theorem getD_eq_get? {α : Type} (l : List α) (n : Nat) (d : α) :
    l.getD n d = (l.get? n).getD d := by
  induction l generalizing n with
  | nil => simp
  | cons x xs ih =>
    cases n with
    | zero => simp
    | succ m => simp [ih m]

theorem getD_replicate {n i : Nat} {c : ℝ} (d : ℝ) (h : i < n) :
    (List.replicate n c).getD i d = c := by
  rw [List.getD_eq_getElem _ _ (by simpa using h)]
  exact List.getElem_replicate _ _

theorem replace_go_get? (nw : List (List ℝ)) :
    ∀ (l : List Weight) (e j : Nat),
      (replace_go nw e l).get? j = (l.get? j).map (replace_one nw (e + j)) := by
  intro l
  induction l with
  | nil => intro e j; simp [replace_go]
  | cons w rest ih =>
    intro e j
    cases j with
    | zero => simp [replace_go]
    | succ jj =>
      simp only [replace_go, List.get?_cons_succ]
      rw [ih (e + 1) jj]
      have e1 : e + 1 + jj = e + (jj + 1) := by omega
      rw [e1]

theorem mutate_nw_get?_succ (ws : List Weight) (nw : List (List ℝ)) (j : Nat) :
    (mutate_nw ws nw).get? (j + 1) = nw.get? (j + 1) := by
  cases ws with
  | nil => rfl
  | cons w wsr =>
    cases nw with
    | nil => rfl
    | cons l nwr =>
      by_cases h : isBeta w.name = false ∧ w.shape.length = 4
      · simp [mutate_nw, h]
      · simp [mutate_nw, h]

theorem mutate_nw_getD_zero (w : Weight) (wsr : List Weight) (nw : List (List ℝ))
    (hb : isBeta w.name = false) (h4 : w.shape.length = 4) :
    (mutate_nw (w :: wsr) nw).getD 0 [] = rule50_mul 0 (nw.getD 0 []) := by
  cases nw with
  | nil => simp [mutate_nw, rule50_mul]
  | cons l nwr => simp [mutate_nw, hb, h4]

theorem replace_one_congr {nw1 nw2 : List (List ℝ)} {e : Nat} (w : Weight)
    (h1 : nw1.getD e [] = nw2.getD e [])
    (h2 : nw1.getD (e + 2) [] = nw2.getD (e + 2) []) :
    replace_one nw1 e w = replace_one nw2 e w := by
  unfold replace_one
  rw [h1, h2]

/-! ## Parse-loop lemmas (for the spec-modelled parser) -/

theorem parse_go_first_bad : ∀ (ts : List TSpec) (ls : List (List (Option ℝ))) (e : Nat),
    ts.length = ls.length →
    (∃ j s l, ts.get? j = some s ∧ ls.get? j = some l ∧ slotOK s l = false) →
    ∃ e', parse_go e ts ls = .error (.badSlot (e + e')) ∧
      ∃ s l, ts.get? e' = some s ∧ ls.get? e' = some l ∧ slotOK s l = false := by
  intro ts
  induction ts with
  | nil =>
    intro ls e hlen hbad
    obtain ⟨j, s, l, hs, -, -⟩ := hbad
    simp at hs
  | cons s0 ts ih =>
    intro ls e hlen hbad
    cases ls with
    | nil => simp at hlen
    | cons l0 ls =>
      by_cases h0 : slotOK s0 l0 = true
      · obtain ⟨j, s, l, hs, hl, hbadjl⟩ := hbad
        cases j with
        | zero =>
          simp only [List.get?_cons_zero, Option.some.injEq] at hs hl
          subst hs
          subst hl
          rw [h0] at hbadjl
          exact Bool.noConfusion hbadjl
        | succ jj =>
          simp only [List.get?_cons_succ] at hs hl
          obtain ⟨e', hpg, s', l', hs', hl', hbad'⟩ :=
            ih ls (e + 1) (by simpa using hlen) ⟨jj, s, l, hs, hl, hbadjl⟩
          refine ⟨e' + 1, ?_, s', l', by simpa using hs', by simpa using hl', hbad'⟩
          simp only [parse_go, if_pos h0, hpg]
          have e1 : e + 1 + e' = e + (e' + 1) := by omega
          rw [e1]
      · refine ⟨0, ?_, s0, l0, rfl, rfl, by simpa using h0⟩
        simp [parse_go, if_neg h0]

/-! ## Claim theorems -/

/-- Claim C4: for every valid configuration (`F` filters, `B ≥ 0` residual
blocks) the ordered weight list of `construct_net` has exactly
`4 + 8·B + 14` entries; in particular `B = 1` gives 26 and `B = 0`
gives 18. -/
theorem c4_tensor_count (F : Nat) (B : Int) (hB : 0 ≤ B) :
    ((construct_net F B).length : Int) = 4 + 8 * B + 14 ∧
    (construct_net F 1).length = 26 ∧ (construct_net F 0).length = 18 := by
  refine ⟨?_, by rw [construct_net_length]; rfl, by rw [construct_net_length]; rfl⟩
  rw [construct_net_length]
  push_cast
  rw [Int.toNat_of_nonneg hB]
  ring

/-- Witness for C4 at `F = 4`, `B = 1`: the topology has 26 tensors. -/
theorem c4_tensor_count_witness :
    ((construct_net 4 1).length : Int) = 4 + 8 * 1 + 14 ∧
    (construct_net 4 1).length = 26 ∧ (construct_net 4 0).length = 18 :=
  c4_tensor_count 4 1 (by decide)

/-- Claim C5 counterexample: `construct_net` performs no (F, B) validation —
at `F = 1`, `B = -1`, where the claim demands a `ConfigurationError`,
topology construction succeeds and yields the same 18-tensor topology as
`B = 0`, because Python's `range(0, -1)` is simply empty. -/
theorem c5_counterexample :
    construct_net 1 (-1) = construct_net 1 0 ∧
    (construct_net 1 (-1)).length = 18 := by
  refine ⟨rfl, ?_⟩
  rw [construct_net_length]
  rfl

/-- Claim C5 (amended): topology construction never fails and validates
nothing: for every filter count `F` (including `F = 0`) and every
residual-block count `B`, `construct_net` returns a topology; a negative
`B` behaves exactly as `B = 0`, and the tensor count is always
`18 + 8·max(B, 0)`. -/
theorem c5_no_validation (F : Nat) (B : Int) :
    (B < 0 → construct_net F B = construct_net F 0) ∧
    (construct_net F B).length = 18 + 8 * B.toNat := by
  refine ⟨?_, construct_net_length F B⟩
  intro hB
  unfold construct_net
  rw [Int.toNat_of_nonpos (le_of_lt hB)]
  rfl

/-- Witness for C5 at `F = 1`, `B = -1`. -/
theorem c5_no_validation_witness :
    construct_net 1 (-1) = construct_net 1 0 ∧
    (construct_net 1 (-1)).length = 18 + 8 * (-1 : Int).toNat :=
  ⟨(c5_no_validation 1 (-1)).1 (by decide), (c5_no_validation 1 (-1)).2⟩

/-- Claim C8: the export-direction layout conversion followed by the
import-direction conversion is the identity on every ConvKernel
(native `[H, W, I, O]` ⇄ exchange `[O, I, H, W]`) and on every DenseKernel
(native `[I, O]` ⇄ exchange `[O, I]`), verified elementwise. -/
theorem c8_layout_involution :
    (∀ (H W I O : Nat) (v : List ℝ), v.length = H * W * I * O →
      untranspose4 H W I O (transpose4 H W I O v) = v) ∧
    (∀ (I O : Nat) (v : List ℝ), v.length = I * O →
      untranspose2 I O (transpose2 I O v) = v) :=
  ⟨fun _ _ _ _ _ hv => untranspose4_transpose4 hv,
   fun _ _ _ hv => untranspose2_transpose2 hv⟩

/-- Witness for C8 on a concrete 1×1 kernel with 2 input and 2 output
channels and a concrete 2×2 dense kernel. -/
theorem c8_layout_involution_witness :
    untranspose4 1 1 2 2 (transpose4 1 1 2 2 [(1 : ℝ), 2, 3, 4]) =
      [(1 : ℝ), 2, 3, 4] ∧
    untranspose2 2 2 (transpose2 2 2 [(5 : ℝ), 6, 7, 8]) = [(5 : ℝ), 6, 7, 8] :=
  ⟨c8_layout_involution.1 1 1 2 2 _ (by simp),
   c8_layout_involution.2 2 2 _ (by simp)⟩

/-- Claim C10: both scaling directions classify an exchange-flat index `i` of
the first kernel as a no-progress entry iff `(i % (112·9)) / 9 = 109` — the
input-channel component of a mixed-radix decomposition with hard-coded
period 9 (a 3×3 kernel) and the fixed channel index 109 of the 112 input
channels. -/
theorem c10_rule50_classification :
    (∀ (l : List ℝ) (i : Nat), i < l.length →
      (rule50_div 0 l).get? i =
        some (if i % (112 * 9) / 9 = 109 then l.getD i 0 / 99 else l.getD i 0) ∧
      (rule50_mul 0 l).get? i =
        some (if i % (112 * 9) / 9 = 109 then l.getD i 0 * 99 else l.getD i 0)) ∧
    (∀ i : Nat, i % (112 * 9) / 9 = i / 9 % 112) := by
  constructor
  · intro l i h
    refine ⟨?_, ?_⟩
    · simpa using rule50_div_get? 0 l i h
    · simpa using rule50_mul_get? 0 l i h
  · intro i
    conv_lhs => rw [Nat.mul_comm 112 9]
    exact Nat.mod_mul_right_div_self i 9 112

/-- Witness for C10 at flat index 981 (channel 109, kernel cell 0) of a
1008-entry line of ones. -/
theorem c10_rule50_classification_witness :
    (rule50_div 0 (List.replicate 1008 (1 : ℝ))).get? 981 = some ((1 : ℝ) / 99) ∧
    (rule50_mul 0 (List.replicate 1008 (1 : ℝ))).get? 981 = some ((1 : ℝ) * 99) := by
  obtain ⟨h1, h2⟩ :=
    c10_rule50_classification.1 (List.replicate 1008 (1 : ℝ)) 981
      (by rw [List.length_replicate]; norm_num)
  have hc : (981 : Nat) % (112 * 9) / 9 = 109 := by norm_num
  have hd : (List.replicate 1008 (1 : ℝ)).getD 981 0 = 1 := getD_replicate 0 (by norm_num)
  rw [if_pos hc, hd] at h1
  rw [if_pos hc, hd] at h2
  exact ⟨h1, h2⟩

/-- Claim C2 (amended): for every `construct_net` topology and every registry
whose running-variance entries satisfy `0 < v + 1e-5` (so the fold factor
`sqrt(v + 1e-5)` is invertible), export succeeds and importing the produced
lines restores every tensor exactly.  The variance restriction is forced: at
`v = -1e-5` the fold factor collapses to zero and the beta cannot be
recovered (see the counterexample). -/
theorem c2_roundtrip (F : Nat) (B : Int) (ws : List Weight)
    (hm : Matches (construct_net F B) ws) (hvok : VarOK ws) :
    save_leelaz_weights ws = some (2, linesOf ws) ∧
    (replace_weights ws (linesOf ws)).1 = ws := by
  obtain ⟨hsave, hrep⟩ := roundtrip_core F B hm hvok
  refine ⟨?_, hrep⟩
  unfold save_leelaz_weights
  rw [hsave]
  rfl

/-- Witness for C2 on the concrete topology `F = 1`, `B = 0` with every
tensor filled with ones. -/
theorem c2_roundtrip_witness :
    Matches (construct_net 1 0) wsGood ∧ VarOK wsGood ∧
    save_leelaz_weights wsGood = some (2, linesOf wsGood) ∧
    (replace_weights wsGood (linesOf wsGood)).1 = wsGood := by
  have hm : Matches (construct_net 1 0) wsGood := matches_mkWsF _ _
  have hv : VarOK wsGood := varOK_mkWsF _ (fun k => by norm_num) _
  obtain ⟨h1, h2⟩ := c2_roundtrip 1 0 wsGood hm hv
  exact ⟨hm, hv, h1, h2⟩

/-- Claim C2 counterexample: with every running variance set to the finite
float value `-1e-5`, export succeeds but the round trip does not restore the
registry — the first beta comes back as 0 instead of 1, because the fold
multiplied it by `sqrt(-1e-5 + 1e-5) = 0` and the unfold divides by the same
zero. -/
theorem c2_counterexample :
    save_leelaz_weights wsBad = some (2, badLines) ∧
    (replace_weights wsBad badLines).1 ≠ wsBad := by
  have hg := specsGood_construct 1 0
  have hm : Matches (construct_net 1 0) wsBad := matches_mkWsF _ _
  obtain ⟨hsave, hlen, hslots⟩ := linesOf_spec hg hm
  have hts1 : (construct_net 1 0).get? 1 = some (WName.bnBeta 0, [1]) := by decide
  have hts3 : (construct_net 1 0).get? 3 = some (WName.bnVar 0, [1]) := by decide
  have hb : wsBad.get? 1 = some ⟨WName.bnBeta 0, [1], [(1 : ℝ)]⟩ := by
    unfold wsBad mkWsF
    rw [List.get?_map, hts1]
    rfl
  have hv : wsBad.get? 3 = some ⟨WName.bnVar 0, [1], [(-1e-5 : ℝ)]⟩ := by
    unfold wsBad mkWsF
    rw [List.get?_map, hts3]
    rfl
  have hzero : (-1e-5 : ℝ) + 1e-5 = 0 := by norm_num
  constructor
  · unfold save_leelaz_weights
    rw [show badLines = linesOf wsBad from rfl, hsave]
    rfl
  · have hline1 := hslots 1 _ hb
    have hvarAt1 : varAt wsBad 1 = [(-1e-5 : ℝ)] := by
      unfold varAt
      rw [hv]
      rfl
    rw [hvarAt1] at hline1
    have hexp1 : exportLine ⟨WName.bnBeta 0, [1], [(1 : ℝ)]⟩ [(-1e-5 : ℝ)] 1 =
        [(0 : ℝ)] := by
      simp only [exportLine, convertLine, isBeta, if_true, one_ne_zero, if_false,
        List.zipWith_cons_cons, List.zipWith_nil_right]
      rw [hzero, Real.sqrt_zero, mul_zero]
    rw [hexp1] at hline1
    have hline3 := hslots 3 _ hv
    have hexp3 : exportLine ⟨WName.bnVar 0, [1], [(-1e-5 : ℝ)]⟩ (varAt wsBad 3) 3 =
        [(-1e-5 : ℝ)] := by
      simp [exportLine, convertLine, isBeta]
    rw [hexp3] at hline3
    intro hEq
    have hc := congrArg (fun l => l.get? 1) hEq
    simp only at hc
    rw [hb] at hc
    have hL : (replace_weights wsBad badLines).1.get? 1 =
        some (replace_one (mutate_nw wsBad badLines) 1
          ⟨WName.bnBeta 0, [1], [(1 : ℝ)]⟩) := by
      show (replace_go (mutate_nw wsBad badLines) 0 wsBad).get? 1 = _
      rw [replace_go_get?, hb]
      rfl
    rw [hL] at hc
    have hnw1 : (mutate_nw wsBad badLines).getD 1 [] = [(0 : ℝ)] := by
      rw [getD_eq_get?, mutate_nw_get?_succ wsBad badLines 0,
        show badLines = linesOf wsBad from rfl, hline1]
      rfl
    have hnw3 : (mutate_nw wsBad badLines).getD 3 [] = [(-1e-5 : ℝ)] := by
      rw [getD_eq_get?,
        show (mutate_nw wsBad badLines).get? 3 = badLines.get? 3 from
          mutate_nw_get?_succ wsBad badLines 2,
        show badLines = linesOf wsBad from rfl, hline3]
      rfl
    have hro : replace_one (mutate_nw wsBad badLines) 1
        ⟨WName.bnBeta 0, [1], [(1 : ℝ)]⟩ =
        ⟨WName.bnBeta 0, [1], [(0 : ℝ)]⟩ := by
      unfold replace_one
      simp only [isBeta, if_true, hnw1, hnw3, List.zipWith_cons_cons,
        List.zipWith_nil_right]
      rw [zero_div]
    rw [hro] at hc
    simp [Weight.mk.injEq] at hc

/-- Claim C3: on export, every normalization layer's bias line equals
`shift × sqrt(runningVariance + 1e-5)` elementwise (the shift being the
layer's beta and the variance the moving variance two slots later), and the
running mean is written unmodified in its own slot, the line after the
bias. -/
theorem c3_norm_fold (F : Nat) (B : Int) (ws : List Weight)
    (hm : Matches (construct_net F B) ws) (e k : Nat) (b : Weight)
    (hb : ws.get? e = some b) (hname : b.name = WName.bnBeta k) :
    ∃ m v, ws.get? (e + 1) = some m ∧ ws.get? (e + 2) = some v ∧
      m.name = WName.bnMean k ∧ v.name = WName.bnVar k ∧
      save_go ws 0 ws = some (linesOf ws) ∧
      (linesOf ws).get? e =
        some (List.zipWith (fun bb vv => bb * Real.sqrt (vv + 1e-5)) b.vals v.vals) ∧
      (linesOf ws).get? (e + 1) = some m.vals := by
  have hg := specsGood_construct F B
  obtain ⟨hsave, hlen, hslots⟩ := linesOf_spec hg hm
  obtain ⟨m, v, h1, h2, hmn, hvn, hvl, hsh, hfind⟩ := find_var_of_beta hg hm hb hname
  obtain ⟨OO, hbsh, hmsh, hvsh⟩ := hsh
  have he : e ≠ 0 := by
    intro h0
    subst h0
    obtain ⟨s, hs, hsn, -, -⟩ := matches_get? hm hb
    have hfirst : (construct_net F B).get? 0 =
        some (WName.convWeight 0, [3, 3, 112, F]) := rfl
    rw [hfirst] at hs
    injection hs with hs2
    rw [← hs2] at hsn
    rw [hsn] at hname
    simp at hname
  have hbb : isBeta b.name = true := by rw [hname]; rfl
  have hvarAt : varAt ws e = v.vals := by unfold varAt; rw [h2]; rfl
  refine ⟨m, v, h1, h2, hmn, hvn, hsave, ?_, ?_⟩
  · have hline := hslots e b hb
    rw [hline, hvarAt]
    simp [exportLine, he, convertLine, hbb]
  · have hline := hslots (e + 1) m h1
    rw [hline]
    have hmb : isBeta m.name = false := by rw [hmn]; rfl
    simp [exportLine, convertLine, hmb, hmsh]

/-- Witness for C3 on the first batch-norm layer of the concrete `F = 1`,
`B = 0` topology filled with ones. -/
theorem c3_norm_fold_witness :
    wsGood.get? 1 = some ⟨WName.bnBeta 0, [1], [(1 : ℝ)]⟩ ∧
    ∃ m v, wsGood.get? 2 = some m ∧ wsGood.get? 3 = some v ∧
      m.name = WName.bnMean 0 ∧ v.name = WName.bnVar 0 ∧
      save_go wsGood 0 wsGood = some (linesOf wsGood) ∧
      (linesOf wsGood).get? 1 =
        some (List.zipWith (fun bb vv => bb * Real.sqrt (vv + 1e-5))
          [(1 : ℝ)] v.vals) ∧
      (linesOf wsGood).get? 2 = some m.vals := by
  have hts1 : (construct_net 1 0).get? 1 = some (WName.bnBeta 0, [1]) := by decide
  have hb : wsGood.get? 1 = some ⟨WName.bnBeta 0, [1], [(1 : ℝ)]⟩ := by
    unfold wsGood mkWsF
    rw [List.get?_map, hts1]
    rfl
  refine ⟨hb, ?_⟩
  have h := c3_norm_fold 1 0 wsGood (matches_mkWsF _ _) 1 0 _ hb rfl
  simpa using h

/-- The conversion of the concrete `ws0` kernel: non-beta, 4-dim, and the
transpose of a constant list is the constant list. -/
theorem work_weights_conv99 (ws : List Weight) :
    work_weights ws
      ⟨WName.convWeight 0, [3, 3, 112, 1], List.replicate 1008 (99 : ℝ)⟩ =
      some (List.replicate 1008 (99 : ℝ)) := by
  have ht : transpose4 3 3 112 1 (List.replicate 1008 (99 : ℝ)) =
      List.replicate 1008 (99 : ℝ) := by
    have h := transpose4_replicate 3 3 112 1 (99 : ℝ)
    norm_num at h
    exact h
  conv_rhs => rw [← ht]
  rfl

/-- The export loop on a single-tensor registry. -/
theorem save_go_single (ws : List Weight) (w : Weight) (wk : List ℝ) (e : Nat)
    (hw : work_weights ws w = some wk) :
    save_go ws e [w] = some [if e = 0 then rule50_div 0 wk else wk] := by
  simp [save_go, hw]

/-- Exporting the one-kernel registry `ws0` produces a single line: the
rule-50-rescaled constant kernel. -/
theorem save_go_ws0 :
    save_go ws0 0 ws0 = some [rule50_div 0 (List.replicate 1008 (99 : ℝ))] := by
  have h := save_go_single ws0 _ _ 0 (work_weights_conv99 ws0)
  exact h

/-- Claim C1 (amended): on export the slot-0 line is the converted kernel
with every no-progress entry divided by 99 and all other entries unscaled,
and every other slot's line is written unscaled; on import the slot-0 kernel
is read with every no-progress entry multiplied by 99, and every other slot
is read unscaled.  (The frozen claim has the two directions swapped: the
code divides by 99 on export and multiplies by 99 on import.) -/
theorem c1_rule50_scaling :
    (∀ (ws : List Weight) (lines : List (List ℝ)) (w : Weight) (wk : List ℝ),
      save_go ws 0 ws = some lines → ws.get? 0 = some w →
      work_weights ws w = some wk →
      lines.get? 0 = some (rule50_div 0 wk) ∧
      ∀ i, i < wk.length →
        (rule50_div 0 wk).get? i =
          some (if i % (112 * 9) / 9 = 109 then wk.getD i 0 / 99 else wk.getD i 0)) ∧
    (∀ (ws : List Weight) (lines : List (List ℝ)) (e : Nat) (w : Weight) (wk : List ℝ),
      save_go ws 0 ws = some lines → 0 < e → ws.get? e = some w →
      work_weights ws w = some wk → lines.get? e = some wk) ∧
    (∀ (ws : List Weight) (nw : List (List ℝ)) (w : Weight) (h wd ic oc : Nat),
      ws.get? 0 = some w → isBeta w.name = false → w.shape = [h, wd, ic, oc] →
      (replace_weights ws nw).1.get? 0 =
        some { w with vals := untranspose4 h wd ic oc (rule50_mul 0 (nw.getD 0 [])) }) ∧
    (∀ (ws : List Weight) (nw : List (List ℝ)) (e : Nat) (w : Weight), 0 < e →
      ws.get? e = some w →
      (replace_weights ws nw).1.get? e = some (replace_one nw e w)) := by
  refine ⟨?_, ?_, ?_, ?_⟩
  · intro ws lines w wk hsave h0 hwork
    obtain ⟨hlen, hslots⟩ := save_go_get? ws ws 0 lines hsave
    obtain ⟨wk', hwk', hline⟩ := hslots 0 w h0
    rw [hwork] at hwk'
    injection hwk' with heq
    subst heq
    refine ⟨by simpa using hline, ?_⟩
    intro i hi
    simpa using rule50_div_get? 0 wk i hi
  · intro ws lines e w wk hsave he h0 hwork
    obtain ⟨hlen, hslots⟩ := save_go_get? ws ws 0 lines hsave
    obtain ⟨wk', hwk', hline⟩ := hslots e w h0
    rw [hwork] at hwk'
    injection hwk' with heq
    subst heq
    have hne : ¬ (0 + e = 0) := by omega
    rw [if_neg hne] at hline
    exact hline
  · intro ws nw w h wd ic oc h0 hb hsh
    cases ws with
    | nil => simp at h0
    | cons w0 wsr =>
      have hww : w0 = w := by simpa using h0
      subst hww
      show (replace_go (mutate_nw (w0 :: wsr) nw) 0 (w0 :: wsr)).get? 0 = _
      rw [replace_go_get?]
      simp only [List.get?_cons_zero, Option.map_some', Nat.add_zero]
      have h4 : w0.shape.length = 4 := by rw [hsh]; rfl
      have hmz := mutate_nw_getD_zero w0 wsr nw hb h4
      rcases w0 with ⟨name, shape, vals⟩
      simp only at hb hsh h4 hmz ⊢
      subst hsh
      unfold replace_one
      simp only [hb, Bool.false_eq_true, if_false]
      rw [hmz]
  · intro ws nw e w he h0
    obtain ⟨e', rfl⟩ : ∃ e', e = e' + 1 := ⟨e - 1, by omega⟩
    show (replace_go (mutate_nw ws nw) 0 ws).get? (e' + 1) = _
    rw [replace_go_get?, h0]
    simp only [Option.map_some', Nat.zero_add]
    congr 1
    apply replace_one_congr
    · rw [getD_eq_get?, getD_eq_get?, mutate_nw_get?_succ]
    · rw [getD_eq_get?, getD_eq_get?,
        show (mutate_nw ws nw).get? (e' + 1 + 2) = nw.get? (e' + 1 + 2) from
          mutate_nw_get?_succ ws nw (e' + 2)]

/-- Claim C1 counterexample: exporting a one-kernel registry whose 1008
entries all hold 99, the designated entry at exchange-flat index 981 (input
channel 109, kernel cell 0) is written as `99 / 99 = 1`, not `99 × 99`:
export divides by 99 rather than multiplying as the frozen claim states. -/
theorem c1_counterexample :
    save_go ws0 0 ws0 = some [rule50_div 0 (List.replicate 1008 (99 : ℝ))] ∧
    (rule50_div 0 (List.replicate 1008 (99 : ℝ))).get? 981 = some ((99 : ℝ) / 99) ∧
    (99 : ℝ) / 99 = 1 ∧ ¬ (99 : ℝ) / 99 = 99 * 99 := by
  refine ⟨save_go_ws0, ?_, by norm_num, by norm_num⟩
  have h := rule50_div_get? 0 (List.replicate 1008 (99 : ℝ)) 981
    (by rw [List.length_replicate]; norm_num)
  rw [getD_replicate 0 (by norm_num)] at h
  simpa using h

/-- Witness for C1 on the concrete one-kernel registry `ws0`. -/
theorem c1_rule50_scaling_witness :
    (rule50_div 0 (List.replicate 1008 (99 : ℝ))).get? 981 =
      some (if 981 % (112 * 9) / 9 = 109
        then (List.replicate 1008 (99 : ℝ)).getD 981 0 / 99
        else (List.replicate 1008 (99 : ℝ)).getD 981 0) ∧
    save_go ws0 0 ws0 = some [rule50_div 0 (List.replicate 1008 (99 : ℝ))] := by
  have h := c1_rule50_scaling.1 ws0 [rule50_div 0 (List.replicate 1008 (99 : ℝ))]
    ⟨WName.convWeight 0, [3, 3, 112, 1], List.replicate 1008 (99 : ℝ)⟩
    (List.replicate 1008 (99 : ℝ)) save_go_ws0 rfl (work_weights_conv99 _)
  exact ⟨h.2 981 (by rw [List.length_replicate]; norm_num), save_go_ws0⟩

/-- Claim C9: `replace_weights` mutates its `new_weights` argument in place —
after a call whose slot 0 is a non-beta 4-dim kernel, the caller-visible
`new_weights[0]` has every no-progress entry multiplied by 99 (all other
lines untouched), so reusing the returned list for a second import would
scale those entries by 99 twice. -/
theorem c9_inplace_mutation (ws : List Weight) (nw : List (List ℝ)) (w : Weight)
    (l : List ℝ) (h0 : ws.get? 0 = some w) (hb : isBeta w.name = false)
    (h4 : w.shape.length = 4) (hl : nw.get? 0 = some l) :
    ((replace_weights ws nw).2).get? 0 = some (rule50_mul 0 l) ∧
    (∀ j, ((replace_weights ws nw).2).get? (j + 1) = nw.get? (j + 1)) ∧
    (∀ i, i < l.length → i % (112 * 9) / 9 = 109 →
      (rule50_mul 0 l).get? i = some (l.getD i 0 * 99)) ∧
    (∀ i, i < l.length → ¬ i % (112 * 9) / 9 = 109 →
      (rule50_mul 0 l).get? i = some (l.getD i 0)) ∧
    (∀ i, i < l.length → i % (112 * 9) / 9 = 109 →
      (rule50_mul 0 (rule50_mul 0 l)).get? i = some (l.getD i 0 * 99 * 99)) := by
  have h2 : (replace_weights ws nw).2 = mutate_nw ws nw := rfl
  obtain ⟨wsr, rfl⟩ : ∃ wsr, ws = w :: wsr := by
    cases ws with
    | nil => simp at h0
    | cons a b =>
      have ha : a = w := by simpa using h0
      exact ⟨b, by rw [ha]⟩
  obtain ⟨nwr, rfl⟩ : ∃ nwr, nw = l :: nwr := by
    cases nw with
    | nil => simp at hl
    | cons a b =>
      have ha : a = l := by simpa using hl
      exact ⟨b, by rw [ha]⟩
  refine ⟨?_, ?_, ?_, ?_, ?_⟩
  · rw [h2]
    simp [mutate_nw, hb, h4]
  · intro j
    rw [h2]
    exact mutate_nw_get?_succ _ _ j
  · intro i hi hc
    have h := rule50_mul_get? 0 l i hi
    simpa [hc] using h
  · intro i hi hc
    have h := rule50_mul_get? 0 l i hi
    simpa [hc] using h
  · intro i hi hc
    have hlen2 : i < (rule50_mul 0 l).length := by rw [rule50_mul_length]; exact hi
    have h := rule50_mul_get? 0 (rule50_mul 0 l) i hlen2
    have hD : (rule50_mul 0 l).getD i 0 = l.getD i 0 * 99 := by
      rw [getD_eq_get?]
      have h1 := rule50_mul_get? 0 l i hi
      rw [h1]
      simp [hc]
    rw [hD] at h
    simpa [hc] using h

/-- Witness for C9: a concrete call whose single line holds 982 twos — entry
981 of the caller's list comes back multiplied by 99. -/
theorem c9_inplace_mutation_witness :
    ((replace_weights ws0 [List.replicate 982 (2 : ℝ)]).2).get? 0 =
      some (rule50_mul 0 (List.replicate 982 (2 : ℝ))) ∧
    (rule50_mul 0 (List.replicate 982 (2 : ℝ))).get? 981 = some ((2 : ℝ) * 99) := by
  have h := c9_inplace_mutation ws0 [List.replicate 982 (2 : ℝ)]
    ⟨WName.convWeight 0, [3, 3, 112, 1], List.replicate 1008 (99 : ℝ)⟩
    (List.replicate 982 (2 : ℝ)) rfl rfl rfl rfl
  refine ⟨h.1, ?_⟩
  have h3 := h.2.2.1 981 (by rw [List.length_replicate]; norm_num) (by norm_num)
  rw [getD_replicate 0 (by norm_num)] at h3
  exact h3

/-- Claim C6 (spec-modelled parser): parsing a file whose version line is any
value other than 2 fails with a `FormatError` before any tensor value is
read — the result does not depend on the line content at all — and an import
attempt through such a file leaves the network untouched. -/
theorem c6_version_gate (topo : List TSpec) (v : Int)
    (ls ls' : List (List (Option ℝ))) (hv : v ≠ 2) :
    parse_weights topo ⟨v, ls⟩ = .error (.badVersion v) ∧
    parse_weights topo ⟨v, ls'⟩ = parse_weights topo ⟨v, ls⟩ ∧
    ∀ ws : List Weight, import_weights ws ⟨v, ls⟩ = .error (.badVersion v) ∧
      run_import ws ⟨v, ls⟩ = ws := by
  have hp : ∀ (topo' : List TSpec) (lls : List (List (Option ℝ))),
      parse_weights topo' ⟨v, lls⟩ = .error (.badVersion v) := by
    intro topo' lls
    simp [parse_weights, VERSION, hv]
  refine ⟨hp topo ls, by rw [hp topo ls, hp topo ls'], ?_⟩
  intro ws
  constructor
  · simp [import_weights, hp]
  · simp [run_import, import_weights, hp]

/-- Witness for C6 with version 3 and two different line contents. -/
theorem c6_version_gate_witness :
    parse_weights [] ⟨3, []⟩ = .error (.badVersion 3) ∧
    parse_weights [] ⟨3, [[some 1]]⟩ = parse_weights [] ⟨3, []⟩ ∧
    import_weights [] ⟨3, []⟩ = .error (.badVersion 3) ∧
    run_import [] ⟨3, []⟩ = [] := by
  obtain ⟨h1, h2, h3⟩ := c6_version_gate [] 3 [] [[some 1]] (by decide)
  exact ⟨h1, h2, (h3 []).1, (h3 []).2⟩

/-- Claim C7 (spec-modelled parser): import is all-or-nothing — a version-2
file whose line count deviates from the topology (including one line short)
fails with a `FormatError` before any assignment, and a file with a wrong
token count or an unparsable numeric token on some line fails naming an
offending tensor slot; in every failure case the live registry is exactly as
if import never ran. -/
theorem c7_import_all_or_nothing (ws : List Weight) (f : RawFile)
    (hv : f.version = 2) :
    (f.lines.length ≠ ws.length →
      import_weights ws f = .error (.badLineCount f.lines.length ws.length) ∧
      run_import ws f = ws) ∧
    (∀ j s l, f.lines.length = ws.length →
      (topoOf ws).get? j = some s → f.lines.get? j = some l → slotOK s l = false →
      ∃ e, import_weights ws f = .error (.badSlot e) ∧ run_import ws f = ws ∧
        ∃ s' l', (topoOf ws).get? e = some s' ∧ f.lines.get? e = some l' ∧
          slotOK s' l' = false) := by
  have hvv : ¬ f.version ≠ VERSION := by simp [VERSION, hv]
  have htl : (topoOf ws).length = ws.length := by simp [topoOf]
  constructor
  · intro hne
    have hp : parse_weights (topoOf ws) f =
        .error (.badLineCount f.lines.length ws.length) := by
      unfold parse_weights
      rw [if_neg hvv, if_pos (by rw [htl]; exact hne), htl]
    exact ⟨by simp [import_weights, hp], by simp [run_import, import_weights, hp]⟩
  · intro j s l hlen hs hl hbad
    obtain ⟨e', hpg, s', l', hs', hl', hbad'⟩ :=
      parse_go_first_bad (topoOf ws) f.lines 0 (by rw [htl, hlen])
        ⟨j, s, l, hs, hl, hbad⟩
    rw [Nat.zero_add] at hpg
    have hp : parse_weights (topoOf ws) f = .error (.badSlot e') := by
      unfold parse_weights
      rw [if_neg hvv, if_neg (by simp [htl, hlen]), hpg]
    exact ⟨e', by simp [import_weights, hp], by simp [run_import, import_weights, hp],
      s', l', hs', hl', hbad'⟩

/-- Witness for C7: a version-2 file with zero lines against the one-tensor
registry `ws0` fails with the line-count error leaving the registry
unchanged, and a version-2 file whose single line is empty fails naming an
offending slot, also leaving the registry unchanged. -/
theorem c7_import_all_or_nothing_witness :
    import_weights ws0 ⟨2, []⟩ = .error (.badLineCount 0 1) ∧
    run_import ws0 ⟨2, []⟩ = ws0 ∧
    ∃ e, import_weights ws0 ⟨2, [[]]⟩ = .error (.badSlot e) ∧
      run_import ws0 ⟨2, [[]]⟩ = ws0 := by
  obtain ⟨hA, hB⟩ := (c7_import_all_or_nothing ws0 ⟨2, []⟩ rfl).1 (by decide)
  obtain ⟨e, hI, hR, -⟩ := (c7_import_all_or_nothing ws0 ⟨2, [[]]⟩ rfl).2 0
    (WName.convWeight 0, [3, 3, 112, 1]) [] rfl rfl rfl (by decide)
  exact ⟨hA, hB, e, hI, hR⟩

end LczeroCodec
